import Mathlib

/-!
Shallow embedding of the py-grasshopper envelope / key-derivation layer
(src/grass_crypt: tools.py, interfaces.py, _engine.py).

Python `bytes` values are modelled as `List Nat` with entries below 256;
Python `str` values are modelled as lists of Unicode code points
(`List Nat`).  External collaborators (hashlib's blake2b, the Rust
`cryptor.do_encrypt`/`do_decrypt` bridge, `os.urandom`) are parameters of
the embedding; the Python standard library's UTF-8 and base64 codecs are
modelled concretely below, following their documented semantics.
-/

namespace GrassCrypt

/-- Python `bytes` values: lists of naturals (each entry a byte). -/
abbrev Bytes := List Nat

/-- Every entry of the list is a byte (below 256). -/
abbrev IsBytes (l : Bytes) : Prop := ∀ b ∈ l, b < 256

/-- UTF-8 encoding of one code point (one character of `str.encode('utf-8')`);
`none` models `UnicodeEncodeError` (lone surrogates, values past U+10FFFF). -/
def utf8_encode_char (c : Nat) : Option (List Nat) :=
  if c < 128 then some [c]
  else if c < 2048 then some [192 + c / 64, 128 + c % 64]
  else if 55296 ≤ c ∧ c < 57344 then none
  else if c < 65536 then some [224 + c / 4096, 128 + c / 64 % 64, 128 + c % 64]
  else if c < 1114112 then
    some [240 + c / 262144, 128 + c / 4096 % 64, 128 + c / 64 % 64, 128 + c % 64]
  else none

/-- UTF-8 encoding of a code-point sequence (Python `str.encode('utf-8')`). -/
def utf8_encode : List Nat → Option (List Nat)
  | [] => some []
  | c :: s =>
    match utf8_encode_char c, utf8_encode s with
    | some e, some rest => some (e ++ rest)
    | _, _ => none

/-- Continuation handling for a 2-byte UTF-8 lead byte. -/
def utf8_cont1 (b0 : Nat) : List Nat → Option (Nat × List Nat)
  | b1 :: r =>
    if 128 ≤ b1 ∧ b1 < 192 then some ((b0 - 192) * 64 + (b1 - 128), r) else none
  | [] => none

/-- Continuation handling for a 3-byte UTF-8 lead byte (rejects overlong
forms and surrogates). -/
def utf8_cont2 (b0 : Nat) : List Nat → Option (Nat × List Nat)
  | b1 :: b2 :: r =>
    if 128 ≤ b1 ∧ b1 < 192 ∧ 128 ≤ b2 ∧ b2 < 192 ∧
        2048 ≤ (b0 - 224) * 4096 + (b1 - 128) * 64 + (b2 - 128) ∧
        ¬(55296 ≤ (b0 - 224) * 4096 + (b1 - 128) * 64 + (b2 - 128) ∧
          (b0 - 224) * 4096 + (b1 - 128) * 64 + (b2 - 128) < 57344) then
      some ((b0 - 224) * 4096 + (b1 - 128) * 64 + (b2 - 128), r)
    else none
  | _ => none

/-- Continuation handling for a 4-byte UTF-8 lead byte (rejects overlong
forms and values past U+10FFFF). -/
def utf8_cont3 (b0 : Nat) : List Nat → Option (Nat × List Nat)
  | b1 :: b2 :: b3 :: r =>
    if 128 ≤ b1 ∧ b1 < 192 ∧ 128 ≤ b2 ∧ b2 < 192 ∧ 128 ≤ b3 ∧ b3 < 192 ∧
        65536 ≤ (b0 - 240) * 262144 + (b1 - 128) * 4096 + (b2 - 128) * 64 + (b3 - 128) ∧
        (b0 - 240) * 262144 + (b1 - 128) * 4096 + (b2 - 128) * 64 + (b3 - 128) < 1114112 then
      some ((b0 - 240) * 262144 + (b1 - 128) * 4096 + (b2 - 128) * 64 + (b3 - 128), r)
    else none
  | _ => none

/-- One step of strict UTF-8 decoding: given the lead byte and the bytes after
it, return the decoded code point and the unconsumed bytes, or `none` on a
malformed sequence. -/
def utf8_step (b0 : Nat) (rest : List Nat) : Option (Nat × List Nat) :=
  if b0 < 128 then some (b0, rest)
  else if b0 < 194 then none
  else if b0 < 224 then utf8_cont1 b0 rest
  else if b0 < 240 then utf8_cont2 b0 rest
  else if b0 < 245 then utf8_cont3 b0 rest
  else none

/-- Fuel-driven loop of the strict UTF-8 decoder; the fuel is an upper bound
on the number of bytes left and never runs out when it starts at the input
length (`utf8_step` always consumes the lead byte). -/
def utf8_decode_fuel : Nat → List Nat → Option (List Nat)
  | _, [] => some []
  | 0, _ :: _ => none
  | fuel + 1, b0 :: rest =>
    match utf8_step b0 rest with
    | none => none
    | some (cp, r) => (utf8_decode_fuel fuel r).map (fun s => cp :: s)

/-- Strict UTF-8 decoding (Python `bytes.decode('utf-8')`); `none` models
`UnicodeDecodeError`. -/
def utf8_decode (b : List Nat) : Option (List Nat) := utf8_decode_fuel b.length b

theorem utf8_step_length (b0 : Nat) (rest : List Nat) (cp : Nat) (r : List Nat)
    (h : utf8_step b0 rest = some (cp, r)) : r.length ≤ rest.length := by
  unfold utf8_step at h
  split_ifs at h with h1 h2 h3 h4
  · simp only [Option.some.injEq, Prod.mk.injEq] at h
    obtain ⟨-, rfl⟩ := h
    exact le_rfl
  · match rest with
    | [] => simp [utf8_cont1] at h
    | b1 :: r1 =>
      simp only [utf8_cont1] at h
      split_ifs at h
      simp only [Option.some.injEq, Prod.mk.injEq] at h
      obtain ⟨-, rfl⟩ := h
      simp only [List.length_cons]
      omega
  · match rest with
    | [] => simp [utf8_cont2] at h
    | [b1] => simp [utf8_cont2] at h
    | b1 :: b2 :: r1 =>
      simp only [utf8_cont2] at h
      split_ifs at h
      simp only [Option.some.injEq, Prod.mk.injEq] at h
      obtain ⟨-, rfl⟩ := h
      simp only [List.length_cons]
      omega
  · match rest with
    | [] => simp [utf8_cont3] at h
    | [b1] => simp [utf8_cont3] at h
    | [b1, b2] => simp [utf8_cont3] at h
    | b1 :: b2 :: b3 :: r1 =>
      simp only [utf8_cont3] at h
      split_ifs at h
      simp only [Option.some.injEq, Prod.mk.injEq] at h
      obtain ⟨-, rfl⟩ := h
      simp only [List.length_cons]
      omega

theorem utf8_decode_fuel_irrel (f1 f2 : Nat) (b : List Nat)
    (h1 : b.length ≤ f1) (h2 : b.length ≤ f2) :
    utf8_decode_fuel f1 b = utf8_decode_fuel f2 b := by
  induction f1 generalizing f2 b with
  | zero =>
    cases b with
    | nil => cases f2 <;> rfl
    | cons b0 rest => simp at h1
  | succ f1 ih =>
    cases b with
    | nil => cases f2 <;> rfl
    | cons b0 rest =>
      cases f2 with
      | zero => simp at h2
      | succ f2 =>
        simp only [utf8_decode_fuel]
        cases hstep : utf8_step b0 rest with
        | none => rfl
        | some v =>
          obtain ⟨cp, r⟩ := v
          have hr := utf8_step_length b0 rest cp r hstep
          show (utf8_decode_fuel f1 r).map (fun s => cp :: s) =
            (utf8_decode_fuel f2 r).map (fun s => cp :: s)
          rw [ih f2 r (by simp at h1; omega) (by simp at h2; omega)]

/-- Unfolding lemma: the decoder consumes one UTF-8 sequence per step. -/
theorem utf8_decode_cons (b0 : Nat) (rest : List Nat) :
    utf8_decode (b0 :: rest) =
      match utf8_step b0 rest with
      | none => none
      | some (cp, r) => (utf8_decode r).map (fun s => cp :: s) := by
  show utf8_decode_fuel (b0 :: rest).length (b0 :: rest) = _
  have hlen : (b0 :: rest).length = rest.length + 1 := by simp
  rw [hlen]
  simp only [utf8_decode_fuel]
  cases hstep : utf8_step b0 rest with
  | none => rfl
  | some v =>
    obtain ⟨cp, r⟩ := v
    have hr := utf8_step_length b0 rest cp r hstep
    show (utf8_decode_fuel rest.length r).map _ = (utf8_decode_fuel r.length r).map _
    rw [utf8_decode_fuel_irrel rest.length r.length r hr le_rfl]

theorem utf8_encode_char_isBytes (c : Nat) (e : List Nat)
    (h : utf8_encode_char c = some e) : IsBytes e := by
  unfold utf8_encode_char at h
  split_ifs at h with h1 h2 h3 h4 h5 <;>
    (injection h with h; subst h; intro b hb; simp at hb) <;> omega

theorem utf8_encode_isBytes (s b : List Nat)
    (h : utf8_encode s = some b) : IsBytes b := by
  induction s generalizing b with
  | nil => unfold utf8_encode at h; injection h with h; subst h; intro x hx; simp at hx
  | cons c s ih =>
    unfold utf8_encode at h
    cases he : utf8_encode_char c with
    | none => rw [he] at h; simp at h
    | some e =>
      rw [he] at h
      cases hr : utf8_encode s with
      | none => rw [hr] at h; simp at h
      | some rest =>
        rw [hr] at h
        injection h with h; subst h
        intro x hx
        rcases List.mem_append.mp hx with hx | hx
        · exact utf8_encode_char_isBytes c e he x hx
        · exact ih rest hr x hx

theorem utf8_step_encode_char (c : Nat) (b0 : Nat) (e : List Nat)
    (he : utf8_encode_char c = some (b0 :: e)) (r : List Nat) :
    utf8_step b0 (e ++ r) = some (c, r) := by
  unfold utf8_encode_char at he
  split_ifs at he with h1 h2 h3 h4 h5 <;> injection he with he <;>
    (obtain ⟨hb, ht⟩ := List.cons.inj he; subst hb; subst ht)
  · -- one byte: b0 = c, e = []
    unfold utf8_step
    rw [if_pos h1, List.nil_append]
  · -- two bytes
    unfold utf8_step
    have hc1 : ¬(192 + c / 64 < 128) := by omega
    have hc2 : ¬(192 + c / 64 < 194) := by omega
    have hc3 : 192 + c / 64 < 224 := by omega
    rw [if_neg hc1, if_neg hc2, if_pos hc3]
    show utf8_cont1 (192 + c / 64) ((128 + c % 64) :: r) = _
    simp only [utf8_cont1]
    have hcond : 128 ≤ 128 + c % 64 ∧ 128 + c % 64 < 192 := by omega
    rw [if_pos hcond]
    have : (192 + c / 64 - 192) * 64 + (128 + c % 64 - 128) = c := by omega
    rw [this]
  · -- three bytes
    unfold utf8_step
    have hc1 : ¬(224 + c / 4096 < 128) := by omega
    have hc2 : ¬(224 + c / 4096 < 194) := by omega
    have hc3 : ¬(224 + c / 4096 < 224) := by omega
    have hc4 : 224 + c / 4096 < 240 := by omega
    rw [if_neg hc1, if_neg hc2, if_neg hc3, if_pos hc4]
    show utf8_cont2 (224 + c / 4096) ((128 + c / 64 % 64) :: (128 + c % 64) :: r) = _
    simp only [utf8_cont2]
    have hcp : (224 + c / 4096 - 224) * 4096 + (128 + c / 64 % 64 - 128) * 64 +
        (128 + c % 64 - 128) = c := by omega
    rw [hcp]
    have hcond : 128 ≤ 128 + c / 64 % 64 ∧ 128 + c / 64 % 64 < 192 ∧
        128 ≤ 128 + c % 64 ∧ 128 + c % 64 < 192 ∧ 2048 ≤ c ∧
        ¬(55296 ≤ c ∧ c < 57344) :=
      ⟨by omega, by omega, by omega, by omega, by omega, h3⟩
    rw [if_pos hcond]
  · -- four bytes
    unfold utf8_step
    have hc1 : ¬(240 + c / 262144 < 128) := by omega
    have hc2 : ¬(240 + c / 262144 < 194) := by omega
    have hc3 : ¬(240 + c / 262144 < 224) := by omega
    have hc4 : ¬(240 + c / 262144 < 240) := by omega
    have hc5 : 240 + c / 262144 < 245 := by omega
    rw [if_neg hc1, if_neg hc2, if_neg hc3, if_neg hc4, if_pos hc5]
    show utf8_cont3 (240 + c / 262144)
      ((128 + c / 4096 % 64) :: (128 + c / 64 % 64) :: (128 + c % 64) :: r) = _
    simp only [utf8_cont3]
    have hcp : (240 + c / 262144 - 240) * 262144 + (128 + c / 4096 % 64 - 128) * 4096 +
        (128 + c / 64 % 64 - 128) * 64 + (128 + c % 64 - 128) = c := by omega
    rw [hcp]
    have hcond : 128 ≤ 128 + c / 4096 % 64 ∧ 128 + c / 4096 % 64 < 192 ∧
        128 ≤ 128 + c / 64 % 64 ∧ 128 + c / 64 % 64 < 192 ∧
        128 ≤ 128 + c % 64 ∧ 128 + c % 64 < 192 ∧ 65536 ≤ c ∧ c < 1114112 := by
      omega
    rw [if_pos hcond]

theorem utf8_decode_encode_char (c : Nat) (e : List Nat)
    (he : utf8_encode_char c = some e) (r : List Nat) :
    utf8_decode (e ++ r) = (utf8_decode r).map (fun s => c :: s) := by
  have hne : e ≠ [] := by
    unfold utf8_encode_char at he
    split_ifs at he <;> injection he with he <;> simp [← he]
  cases e with
  | nil => exact absurd rfl hne
  | cons b0 e' =>
    rw [List.cons_append, utf8_decode_cons,
      utf8_step_encode_char c b0 e' he r]

/-- UTF-8 round trip: decoding recovers the code points the source encoded. -/
theorem utf8_decode_encode (s b : List Nat)
    (h : utf8_encode s = some b) : utf8_decode b = some s := by
  induction s generalizing b with
  | nil =>
    unfold utf8_encode at h; injection h with h; subst h; rfl
  | cons c s ih =>
    unfold utf8_encode at h
    cases he : utf8_encode_char c with
    | none => rw [he] at h; simp at h
    | some e =>
      rw [he] at h
      cases hr : utf8_encode s with
      | none => rw [hr] at h; simp at h
      | some rest =>
        rw [hr] at h
        injection h with h; subst h
        rw [utf8_decode_encode_char c e he rest, ih rest hr]
        rfl

theorem utf8_step_ascii (b0 : Nat) (rest : List Nat) (cp : Nat) (r : List Nat)
    (h : utf8_step b0 rest = some (cp, r)) (hcp : cp < 128) :
    b0 = cp ∧ rest = r := by
  unfold utf8_step at h
  split_ifs at h with h1 h2 h3 h4
  · simp only [Option.some.injEq, Prod.mk.injEq] at h
    exact ⟨h.1, h.2⟩
  · match rest with
    | [] => simp [utf8_cont1] at h
    | b1 :: r1 =>
      simp only [utf8_cont1] at h
      split_ifs at h
      simp only [Option.some.injEq, Prod.mk.injEq] at h
      omega
  · match rest with
    | [] => simp [utf8_cont2] at h
    | [b1] => simp [utf8_cont2] at h
    | b1 :: b2 :: r1 =>
      simp only [utf8_cont2] at h
      split_ifs at h with hc
      simp only [Option.some.injEq, Prod.mk.injEq] at h
      omega
  · match rest with
    | [] => simp [utf8_cont3] at h
    | [b1] => simp [utf8_cont3] at h
    | [b1, b2] => simp [utf8_cont3] at h
    | b1 :: b2 :: b3 :: r1 =>
      simp only [utf8_cont3] at h
      split_ifs at h with hc
      simp only [Option.some.injEq, Prod.mk.injEq] at h
      omega

/-- A decode that yields only ASCII code points consumed exactly those bytes. -/
theorem utf8_decode_ascii (b s : List Nat)
    (h : utf8_decode b = some s) (hs : ∀ c ∈ s, c < 128) : b = s := by
  induction b generalizing s with
  | nil => exact Option.some.inj h
  | cons b0 rest ih =>
    rw [utf8_decode_cons] at h
    cases hstep : utf8_step b0 rest with
    | none =>
      simp only [hstep] at h
      exact Option.noConfusion h
    | some v =>
      obtain ⟨cp, r⟩ := v
      simp only [hstep] at h
      cases hr : utf8_decode r with
      | none => rw [hr] at h; exact Option.noConfusion h
      | some s' =>
        rw [hr] at h
        simp only [Option.map_some', Option.some.injEq] at h
        subst h
        have hcp : cp < 128 := hs cp (by simp)
        obtain ⟨hb0, hrest⟩ := utf8_step_ascii b0 rest cp r hstep hcp
        have h2 : utf8_decode rest = some s' := by rw [hrest]; exact hr
        rw [hb0, ih s' h2 (fun c hc => hs c (List.mem_cons_of_mem _ hc))]

/-- The base64 alphabet: maps a 6-bit value to its ASCII character. -/
def b64tbl (k : Nat) : Nat :=
  if k < 26 then 65 + k
  else if k < 52 then 97 + (k - 26)
  else if k < 62 then 48 + (k - 52)
  else if k = 62 then 43
  else 47

/-- Inverse base64 alphabet (CPython's `table_a2b_base64`): `none` for bytes
outside the alphabet. -/
def b64inv (c : Nat) : Option Nat :=
  if 65 ≤ c ∧ c ≤ 90 then some (c - 65)
  else if 97 ≤ c ∧ c ≤ 122 then some (c - 97 + 26)
  else if 48 ≤ c ∧ c ≤ 57 then some (c - 48 + 52)
  else if c = 43 then some 62
  else if c = 47 then some 63
  else none

/-- Python `base64.b64encode`: standard base64 with 61 (the character =) as
padding. -/
def b64encode : List Nat → List Nat
  | a :: b :: c :: rest =>
    b64tbl (a / 4) :: b64tbl (a % 4 * 16 + b / 16) ::
      b64tbl (b % 16 * 4 + c / 64) :: b64tbl (c % 64) :: b64encode rest
  | [a, b] => [b64tbl (a / 4), b64tbl (a % 4 * 16 + b / 16), b64tbl (b % 16 * 4), 61]
  | [a] => [b64tbl (a / 4), b64tbl (a % 4 * 16), 61, 61]
  | [] => []

/-- Result of processing one input byte of CPython's lenient
`binascii.a2b_base64` loop: stop decoding (completed padding), or continue
with a new `(quad_pos, leftchar, pads)` state and emitted output bytes. -/
inductive B64Step
  | stop
  | cont (quadPos leftchar pads : Nat) (emit : List Nat)

/-- One iteration of CPython's lenient `binascii.a2b_base64` loop (the
default used by `base64.b64decode`): a padding byte with `quad_pos >= 2`
that completes a quad stops decoding; bytes outside the alphabet are
skipped; alphabet bytes shift six bits in, emitting a byte at quad
positions 1-3. -/
def b64step (c quadPos leftchar pads : Nat) : B64Step :=
  if c = 61 then
    if 2 ≤ quadPos then
      if 4 ≤ quadPos + (pads + 1) then .stop
      else .cont quadPos leftchar (pads + 1) []
    else .cont quadPos leftchar pads []
  else
    match b64inv c with
    | none => .cont quadPos leftchar pads []
    | some v =>
      if quadPos = 0 then .cont 1 v 0 []
      else if quadPos = 1 then .cont 2 (v % 16) 0 [leftchar * 4 + v / 16]
      else if quadPos = 2 then .cont 3 (v % 4) 0 [leftchar * 16 + v / 4]
      else .cont 0 0 0 [leftchar * 64 + v]

/-- The lenient `binascii.a2b_base64` loop; `none` models `binascii.Error`
(raised when the leftover quad position is nonzero at end of input: one
leftover data character, or incorrect padding). -/
def a2b_base64 : List Nat → Nat → Nat → Nat → List Nat → Option (List Nat)
  | [], quadPos, _, _, acc => if quadPos = 0 then some acc else none
  | c :: rest, quadPos, leftchar, pads, acc =>
    match b64step c quadPos leftchar pads with
    | .stop => some acc
    | .cont q l p emit => a2b_base64 rest q l p (acc ++ emit)

/-- Python `base64.b64decode` (default non-validating mode). -/
def b64decode_py (b : List Nat) : Option (List Nat) := a2b_base64 b 0 0 0 []

theorem b64inv_tbl : ∀ k, k < 64 → b64inv (b64tbl k) = some k := by decide

theorem b64tbl_ne_pad : ∀ k, k < 64 → b64tbl k ≠ 61 := by decide

theorem a2b_cons_cont {c q l p q2 l2 p2 : Nat} {emit : List Nat}
    (rest acc : List Nat)
    (hstep : b64step c q l p = .cont q2 l2 p2 emit) :
    a2b_base64 (c :: rest) q l p acc = a2b_base64 rest q2 l2 p2 (acc ++ emit) := by
  simp only [a2b_base64]
  rw [hstep]

theorem a2b_cons_stop {c q l p : Nat} (rest acc : List Nat)
    (hstep : b64step c q l p = .stop) :
    a2b_base64 (c :: rest) q l p acc = some acc := by
  simp only [a2b_base64]
  rw [hstep]

theorem b64step_v0 {c v : Nat} (l p : Nat) (hinv : b64inv c = some v)
    (hne : ¬c = 61) : b64step c 0 l p = .cont 1 v 0 [] := by
  unfold b64step
  rw [if_neg hne, hinv]
  rfl

theorem b64step_v1 {c v : Nat} (l p : Nat) (hinv : b64inv c = some v)
    (hne : ¬c = 61) : b64step c 1 l p = .cont 2 (v % 16) 0 [l * 4 + v / 16] := by
  unfold b64step
  rw [if_neg hne, hinv]
  rfl

theorem b64step_v2 {c v : Nat} (l p : Nat) (hinv : b64inv c = some v)
    (hne : ¬c = 61) : b64step c 2 l p = .cont 3 (v % 4) 0 [l * 16 + v / 4] := by
  unfold b64step
  rw [if_neg hne, hinv]
  rfl

theorem b64step_v3 {c v : Nat} (l p : Nat) (hinv : b64inv c = some v)
    (hne : ¬c = 61) : b64step c 3 l p = .cont 0 0 0 [l * 64 + v] := by
  unfold b64step
  rw [if_neg hne, hinv]
  rfl

theorem b64step_pad_stop {q : Nat} (l p : Nat) (h2 : 2 ≤ q)
    (h4 : 4 ≤ q + (p + 1)) : b64step 61 q l p = .stop := by
  unfold b64step
  rw [if_pos rfl, if_pos h2, if_pos h4]

theorem b64step_pad_cont {q : Nat} (l p : Nat) (h2 : 2 ≤ q)
    (h4 : ¬4 ≤ q + (p + 1)) : b64step 61 q l p = .cont q l (p + 1) [] := by
  unfold b64step
  rw [if_pos rfl, if_pos h2, if_neg h4]

/-- Decoding one full encoded quad appends the three source bytes. -/
theorem a2b_quad (a b c : Nat) (ha : a < 256) (hb : b < 256) (hc : c < 256)
    (tail : List Nat) (l p : Nat) (acc : List Nat) :
    a2b_base64 (b64tbl (a / 4) :: b64tbl (a % 4 * 16 + b / 16) ::
      b64tbl (b % 16 * 4 + c / 64) :: b64tbl (c % 64) :: tail) 0 l p acc =
    a2b_base64 tail 0 0 0 (acc ++ [a, b, c]) := by
  have h0 : a / 4 < 64 := by omega
  have h1 : a % 4 * 16 + b / 16 < 64 := by omega
  have h2 : b % 16 * 4 + c / 64 < 64 := by omega
  have h3 : c % 64 < 64 := by omega
  rw [a2b_cons_cont _ _ (b64step_v0 l p (b64inv_tbl _ h0) (b64tbl_ne_pad _ h0))]
  rw [a2b_cons_cont _ _ (b64step_v1 (a / 4) 0 (b64inv_tbl _ h1) (b64tbl_ne_pad _ h1))]
  have e1 : a / 4 * 4 + (a % 4 * 16 + b / 16) / 16 = a := by omega
  have e2 : (a % 4 * 16 + b / 16) % 16 = b / 16 := by omega
  rw [e1, e2]
  rw [a2b_cons_cont _ _ (b64step_v2 (b / 16) 0 (b64inv_tbl _ h2) (b64tbl_ne_pad _ h2))]
  have e3 : b / 16 * 16 + (b % 16 * 4 + c / 64) / 4 = b := by omega
  have e4 : (b % 16 * 4 + c / 64) % 4 = c / 64 := by omega
  rw [e3, e4]
  rw [a2b_cons_cont _ _ (b64step_v3 (c / 64) 0 (b64inv_tbl _ h3) (b64tbl_ne_pad _ h3))]
  have e5 : c / 64 * 64 + c % 64 = c := by omega
  rw [e5]
  simp [List.append_assoc]

/-- Decoding a final two-byte group (one padding character). -/
theorem a2b_two (a b : Nat) (ha : a < 256) (hb : b < 256)
    (l p : Nat) (acc : List Nat) :
    a2b_base64 [b64tbl (a / 4), b64tbl (a % 4 * 16 + b / 16),
      b64tbl (b % 16 * 4), 61] 0 l p acc = some (acc ++ [a, b]) := by
  have h0 : a / 4 < 64 := by omega
  have h1 : a % 4 * 16 + b / 16 < 64 := by omega
  have h2 : b % 16 * 4 < 64 := by omega
  rw [a2b_cons_cont _ _ (b64step_v0 l p (b64inv_tbl _ h0) (b64tbl_ne_pad _ h0))]
  rw [a2b_cons_cont _ _ (b64step_v1 (a / 4) 0 (b64inv_tbl _ h1) (b64tbl_ne_pad _ h1))]
  have e1 : a / 4 * 4 + (a % 4 * 16 + b / 16) / 16 = a := by omega
  have e2 : (a % 4 * 16 + b / 16) % 16 = b / 16 := by omega
  rw [e1, e2]
  rw [a2b_cons_cont _ _ (b64step_v2 (b / 16) 0 (b64inv_tbl _ h2) (b64tbl_ne_pad _ h2))]
  have e3 : b / 16 * 16 + b % 16 * 4 / 4 = b := by omega
  rw [e3]
  rw [a2b_cons_stop _ _ (b64step_pad_stop _ _ (by omega) (by omega))]
  simp [List.append_assoc]

/-- Decoding a final one-byte group (two padding characters). -/
theorem a2b_one (a : Nat) (ha : a < 256) (l p : Nat) (acc : List Nat) :
    a2b_base64 [b64tbl (a / 4), b64tbl (a % 4 * 16), 61, 61] 0 l p acc =
      some (acc ++ [a]) := by
  have h0 : a / 4 < 64 := by omega
  have h1 : a % 4 * 16 < 64 := by omega
  rw [a2b_cons_cont _ _ (b64step_v0 l p (b64inv_tbl _ h0) (b64tbl_ne_pad _ h0))]
  rw [a2b_cons_cont _ _ (b64step_v1 (a / 4) 0 (b64inv_tbl _ h1) (b64tbl_ne_pad _ h1))]
  have e1 : a / 4 * 4 + a % 4 * 16 / 16 = a := by omega
  have e2 : a % 4 * 16 % 16 = 0 := by omega
  rw [e1, e2]
  rw [a2b_cons_cont _ _ (b64step_pad_cont 0 0 (by omega) (by omega))]
  rw [a2b_cons_stop _ _ (b64step_pad_stop _ _ (by omega) (by omega))]
  simp [List.append_assoc]

theorem a2b_b64encode (x : List Nat) (hx : IsBytes x) :
    ∀ acc, a2b_base64 (b64encode x) 0 0 0 acc = some (acc ++ x) := by
  induction x using b64encode.induct with
  | case1 a b c rest ih =>
    intro acc
    have ha : a < 256 := hx a (by simp)
    have hb : b < 256 := hx b (by simp)
    have hc : c < 256 := hx c (by simp)
    have hrest : IsBytes rest := fun y hy => hx y (by simp [hy])
    simp only [b64encode]
    rw [a2b_quad a b c ha hb hc _ 0 0 acc]
    have ih2 := (fun y hy => hx y (by simp [hy]) : IsBytes rest)
    rw [ih ih2 (acc ++ [a, b, c])]
    simp
  | case2 a b =>
    intro acc
    have ha : a < 256 := hx a (by simp)
    have hb : b < 256 := hx b (by simp)
    simp only [b64encode]
    rw [a2b_two a b ha hb 0 0 acc]
  | case3 a =>
    intro acc
    have ha : a < 256 := hx a (by simp)
    simp only [b64encode]
    rw [a2b_one a ha 0 0 acc]
  | case4 =>
    intro acc
    simp [b64encode, a2b_base64]

/-- Python base64 round trip: lenient `b64decode` inverts `b64encode`. -/
theorem b64decode_encode (x : List Nat) (hx : IsBytes x) :
    b64decode_py (b64encode x) = some x := by
  unfold b64decode_py
  rw [a2b_b64encode x hx []]
  simp

theorem b64encode_ne_nil (x : List Nat) (hx : x ≠ []) : b64encode x ≠ [] := by
  match x with
  | [] => exact absurd rfl hx
  | [a] => simp [b64encode]
  | [a, b] => simp [b64encode]
  | a :: b :: c :: rest => simp [b64encode]

/-- Python exception values raised in this layer. -/
inductive PyErr
  | valueError (m : String)
  | typeError
  | keyError
  | unicodeEncodeError
  | unicodeDecodeError
  | binasciiError
  | metaStringError (m : String)
deriving DecidableEq, Repr

/-- The message `str(error)` used when `decrypt` wraps a parse failure in
`MetaStringError`. -/
def PyErr.msg : PyErr → String
  | .valueError m => m
  | .typeError => "TypeError"
  | .keyError => "KeyError"
  | .unicodeEncodeError => "UnicodeEncodeError"
  | .unicodeDecodeError => "UnicodeDecodeError"
  | .binasciiError => "binascii.Error"
  | .metaStringError m => m

/-- tools.py `EncryptMode`: the closed enumeration of cipher modes. -/
inductive EncryptMode
  | ECB | CBC | CFB | OFB | CTR
deriving DecidableEq, Repr

/-- The `value` of each member as a Python string (code points). -/
def EncryptMode.value : EncryptMode → List Nat
  | .ECB => [69, 67, 66]
  | .CBC => [67, 66, 67]
  | .CFB => [67, 70, 66]
  | .OFB => [79, 70, 66]
  | .CTR => [67, 84, 82]

/-- The `name` of each member; in this enum every name equals its value. -/
def EncryptMode.name : EncryptMode → List Nat := EncryptMode.value

/-- tools.py `EncryptMode.as_bytes`: `self.value.encode('utf-8')`. -/
def EncryptMode.as_bytes (m : EncryptMode) : Bytes :=
  (utf8_encode m.value).getD []

/-- `EncryptMode.__members__` in declaration order. -/
def EncryptMode.members : List EncryptMode := [.ECB, .CBC, .CFB, .OFB, .CTR]

/-- Calling the enum class, `EncryptMode(v)`: Python Enum lookup by value;
`ValueError` for a value that is not a member. -/
def EncryptMode.enum_call (v : List Nat) : Except PyErr EncryptMode :=
  match EncryptMode.members.find? (fun m => m.value == v) with
  | some m => .ok m
  | none => .error (.valueError "is not a valid EncryptMode")

/-- tools.py `EncryptMode.me_from_value`: scan `__members__` for a member
whose value equals the argument and return `cls(name)` for its name;
`ValueError` (Unknown encrypt mode) when no member matches. -/
def EncryptMode.me_from_value (value : List Nat) : Except PyErr EncryptMode :=
  match EncryptMode.members.find? (fun m => m.value == value) with
  | some m => EncryptMode.enum_call m.name
  | none => .error (.valueError "Unknown encrypt mode")

/-- tools.py `EncryptMode.me_from_name`: `cls(name)` when the argument is a
member name, else `ValueError` (Unknown encrypt mode). -/
def EncryptMode.me_from_name (n : List Nat) : Except PyErr EncryptMode :=
  if EncryptMode.members.any (fun m => m.name == n) then
    EncryptMode.enum_call n
  else .error (.valueError "Unknown encrypt mode")

/-- The Python `type` object passed as `plaintext_type` (only `str` and
`bytes` are recognized; `other` stands for any other type object). -/
inductive PyType
  | str | bytes | other
deriving DecidableEq, Repr

/-- A plaintext payload: Python `str` (code points) or `bytes`. -/
inductive Payload
  | str (cps : List Nat)
  | byt (bs : Bytes)
deriving DecidableEq, Repr

/-- Python truthiness `not plaintext` for str/bytes: emptiness. -/
def Payload.isEmpty : Payload → Bool
  | .str s => s.isEmpty
  | .byt b => b.isEmpty

/-- `type(plaintext)`. -/
def Payload.pyType : Payload → PyType
  | .str _ => .str
  | .byt _ => .bytes

/-- `plaintext.encode('utf-8')` applied to text payloads (bytes unchanged). -/
def Payload.toBytes : Payload → Except PyErr Bytes
  | .str s =>
    match utf8_encode s with
    | some b => .ok b
    | none => .error .unicodeEncodeError
  | .byt b => .ok b

/-- The metadata dictionary built by `read_meta`. -/
structure MetaData where
  source_type : PyType
  mode : EncryptMode
  salt : Bytes
  hash_code : Bytes
deriving DecidableEq, Repr

/-- External collaborators of the layer: hashlib's blake2b digest as a
function of (message, digest_size, salt), and the Rust cipher bridge
`cryptor.do_encrypt` / `cryptor.do_decrypt` as functions of (data, key). -/
structure Ext where
  blake2b : Bytes → Nat → Bytes → Bytes
  do_encrypt : Bytes → Bytes → Bytes
  do_decrypt : Bytes → Bytes → Bytes

/-- tools.py `get_salt`: `os.urandom(blake2b.SALT_SIZE)`; the random draw is
the `rand` parameter of the embedding. -/
def get_salt (rand : Bytes) : Bytes := rand

/-- tools.py `get_hash_blake2b(value, digest_size=32, salt=None)`: the
isinstance checks are static in the embedding; `ValueError` when the digest
size is outside 1..64; a fresh salt is drawn from the randomness parameter
when none is supplied; returns the blake2b digest of the UTF-8 encoded
value together with the salt used (`UnicodeEncodeError` models
`value.encode('utf-8')` failing on a lone surrogate). -/
def get_hash_blake2b (E : Ext) (value : List Nat) (digest_size : Nat)
    (salt : Option Bytes) (rand : Bytes) : Except PyErr (Bytes × Bytes) :=
  if ¬(1 ≤ digest_size ∧ digest_size ≤ 64) then
    .error (.valueError "digest_size out of range")
  else
    let s := match salt with
      | none => get_salt rand
      | some s => s
    match utf8_encode value with
    | some vb => .ok (E.blake2b vb digest_size s, s)
    | none => .error .unicodeEncodeError

/-- interfaces.py `validate_inputs_data`: `code` must be a non-empty string
(`mode` being an `EncryptMode` instance is enforced by typing here). -/
def validate_inputs_data (code : List Nat) : Except PyErr Unit :=
  if code.isEmpty then
    .error (.valueError "code must be str and cannot be empty")
  else .ok ()

/-- interfaces.py `make_meta`: 3-byte type tag (STR = [83,84,82] /
BYT = [66,89,84], the first three letters of the type name uppercased),
3-byte mode tag, the salt, then the passphrase hash; `ValueError` when
`plaintext_type` is neither `str` nor `bytes`. -/
def make_meta (plaintext_type : PyType) (hash_code salt : Bytes)
    (mode : EncryptMode) : Except PyErr Bytes :=
  match plaintext_type with
  | .str => .ok ([83, 84, 82] ++ mode.as_bytes ++ salt ++ hash_code)
  | .bytes => .ok ([66, 89, 84] ++ mode.as_bytes ++ salt ++ hash_code)
  | .other => .error (.valueError "plaintext_type must be str or bytes")

/-- The `{'STR': str, 'BYT': bytes}[...]` dictionary lookup inside
`read_meta`; `KeyError` when the decoded tag is neither key. -/
def type_tag_lookup (cps : List Nat) : Except PyErr PyType :=
  if cps = [83, 84, 82] then .ok .str
  else if cps = [66, 89, 84] then .ok .bytes
  else .error .keyError

/-- interfaces.py `read_meta`: returns `(error?, remaining ciphertext,
metadata dictionary)`.  Every failure inside the body (short input, type
tag decode or lookup, mode tag decode or lookup) is caught and returned as
the first component, with empty remaining bytes and an empty dictionary
(modelled as `none`); the function itself never raises. -/
def read_meta (ciphertext : Bytes) :
    Option PyErr × Bytes × Option MetaData :=
  if ciphertext.length < 54 then
    (some (.valueError "metadata string is incorrect (short line)"), [], none)
  else
    match utf8_decode (ciphertext.take 3) with
    | none => (some .unicodeDecodeError, [], none)
    | some tcps =>
      match type_tag_lookup tcps with
      | .error e => (some e, [], none)
      | .ok st =>
        match utf8_decode ((ciphertext.drop 3).take 3) with
        | none => (some .unicodeDecodeError, [], none)
        | some mcps =>
          match EncryptMode.me_from_value mcps with
          | .error e => (some e, [], none)
          | .ok mode =>
            (none, ciphertext.drop 54,
              some ⟨st, mode, (ciphertext.drop 6).take 16,
                (ciphertext.drop 22).take 32⟩)

/-- A Python `RuntimeWarning` emitted via `warnings.warn`. -/
inductive Warning
  | modeWarning
deriving DecidableEq, Repr

/-- engine `_mode_warning`: warn when the mode is not ECB. -/
def _mode_warning (mode : EncryptMode) : List Warning :=
  if mode ≠ EncryptMode.ECB then [.modeWarning] else []

/-- engine `encrypting_rust`: emits the mode warning, then calls
`cryptor.do_encrypt(plaintext, code)` — the mode is not passed on. -/
def encrypting_rust (E : Ext) (plaintext code : Bytes) (mode : EncryptMode) :
    List Warning × Bytes :=
  (_mode_warning mode, E.do_encrypt plaintext code)

/-- engine `decrypting_rust`: emits the mode warning, then calls
`cryptor.do_decrypt(ciphertext, code)` — the mode is not passed on. -/
def decrypting_rust (E : Ext) (ciphertext code : Bytes) (mode : EncryptMode) :
    List Warning × Bytes :=
  (_mode_warning mode, E.do_decrypt ciphertext code)

/-- interfaces.py `encrypt(plaintext, code, mode)`: validate the inputs,
derive key and fresh salt, UTF-8 encode a text payload, cipher, build the
metadata header, and base64-armor header plus ciphertext.  The emitted
warnings are returned alongside the blob. -/
def encrypt (E : Ext) (rand : Bytes) (plaintext : Payload) (code : List Nat)
    (mode : EncryptMode) : Except PyErr (List Warning × Bytes) :=
  if plaintext.isEmpty then
    .error (.valueError "plaintext must be str, bytes and cannot be empty")
  else
    match validate_inputs_data code with
    | .error e => .error e
    | .ok _ =>
      match get_hash_blake2b E code 32 none rand with
      | .error e => .error e
      | .ok (hash_code, salt) =>
        match plaintext.toBytes with
        | .error e => .error e
        | .ok pbytes =>
          let wenc := encrypting_rust E pbytes hash_code mode
          match make_meta plaintext.pyType hash_code salt mode with
          | .error e => .error e
          | .ok meta => .ok (wenc.1, b64encode (meta ++ wenc.2))

/-- interfaces.py `decrypt(ciphertext, code)`: de-armor with Python's
lenient base64 (`binascii.Error` propagates), parse the metadata (any parse
error is wrapped in `MetaStringError`), re-derive the key from the
recovered salt, compare with the stored hash (`MetaStringError` on
mismatch), decipher, and rebuild the original payload type (UTF-8 decoding
a text payload).  The `keyError` branch models the subscript of an empty
metadata dictionary; it cannot be reached when no error was returned. -/
def decrypt (E : Ext) (ciphertext : Bytes) (code : List Nat) :
    Except PyErr (List Warning × Payload) :=
  if ciphertext.isEmpty then
    .error (.valueError "ciphertext must be bytes and cannot be empty")
  else
    match b64decode_py ciphertext with
    | none => .error .binasciiError
    | some ct =>
      match read_meta ct with
      | (some e, _, _) => .error (.metaStringError e.msg)
      | (none, _, none) => .error .keyError
      | (none, ct2, some md) =>
        match get_hash_blake2b E code 32 (some md.salt) [] with
        | .error e => .error e
        | .ok (hash_code, _) =>
          if hash_code ≠ md.hash_code then
            .error (.metaStringError "passphrases do not match")
          else
            let wdec := decrypting_rust E ct2 hash_code md.mode
            match md.source_type with
            | .bytes => .ok (wdec.1, .byt wdec.2)
            | _ =>
              match utf8_decode wdec.2 with
              | some cps => .ok (wdec.1, .str cps)
              | none => .error .unicodeDecodeError

/-- CPython call semantics for `decrypt(ct, code=..., ignore_mismatch=...)`:
the source signature `decrypt(ciphertext, *, code)` has no
`ignore_mismatch` parameter, so such a call raises `TypeError` (unexpected
keyword argument) before the body runs. -/
def decrypt_call_with_ignore_mismatch (E : Ext) (ciphertext : Bytes)
    (code : List Nat) (ignore_mismatch : Bool) :
    Except PyErr (List Warning × Payload) :=
  .error .typeError

theorem IsBytes_append {a b : Bytes} (ha : IsBytes a) (hb : IsBytes b) :
    IsBytes (a ++ b) := by
  intro x hx
  rcases List.mem_append.mp hx with h | h
  · exact ha x h
  · exact hb x h

theorem as_bytes_val (m : EncryptMode) : m.as_bytes = m.value := by
  cases m <;> rfl

theorem as_bytes_length (m : EncryptMode) : m.as_bytes.length = 3 := by
  cases m <;> rfl

theorem as_bytes_isBytes (m : EncryptMode) : IsBytes m.as_bytes := by
  cases m <;> (intro x hx; simp [EncryptMode.as_bytes, EncryptMode.value, utf8_encode,
    utf8_encode_char] at hx; omega)

theorem utf8_decode_as_bytes (m : EncryptMode) :
    utf8_decode m.as_bytes = some m.value := by
  cases m <;> rfl

theorem me_from_value_val (m : EncryptMode) :
    EncryptMode.me_from_value m.value = .ok m := by
  cases m <;> rfl

/-- Field slices of a well-formed 54-byte header followed by ciphertext. -/
theorem header_slices (t mb salt hash ct : Bytes)
    (ht : t.length = 3) (hm : mb.length = 3) (hs : salt.length = 16)
    (hh : hash.length = 32) :
    (t ++ (mb ++ (salt ++ (hash ++ ct)))).take 3 = t ∧
    ((t ++ (mb ++ (salt ++ (hash ++ ct)))).drop 3).take 3 = mb ∧
    ((t ++ (mb ++ (salt ++ (hash ++ ct)))).drop 6).take 16 = salt ∧
    ((t ++ (mb ++ (salt ++ (hash ++ ct)))).drop 22).take 32 = hash ∧
    (t ++ (mb ++ (salt ++ (hash ++ ct)))).drop 54 = ct ∧
    (t ++ (mb ++ (salt ++ (hash ++ ct)))).length = 54 + ct.length := by
  have d3 : (t ++ (mb ++ (salt ++ (hash ++ ct)))).drop 3 =
      mb ++ (salt ++ (hash ++ ct)) := List.drop_left' ht
  have d6 : (t ++ (mb ++ (salt ++ (hash ++ ct)))).drop 6 = salt ++ (hash ++ ct) := by
    have h66 : (6 : Nat) = 3 + 3 := rfl
    rw [h66, ← List.drop_drop, d3, List.drop_left' hm]
  have d22 : (t ++ (mb ++ (salt ++ (hash ++ ct)))).drop 22 = hash ++ ct := by
    have h22 : (22 : Nat) = 6 + 16 := rfl
    rw [h22, ← List.drop_drop, d6, List.drop_left' hs]
  have d54 : (t ++ (mb ++ (salt ++ (hash ++ ct)))).drop 54 = ct := by
    have h54 : (54 : Nat) = 22 + 32 := rfl
    rw [h54, ← List.drop_drop, d22, List.drop_left' hh]
  refine ⟨?_, ?_, ?_, ?_, d54, ?_⟩
  · rw [← ht, List.take_left]
  · rw [d3, ← hm, List.take_left]
  · rw [d6, ← hs, List.take_left]
  · rw [d22, ← hh, List.take_left]
  · simp [List.length_append, ht, hm, hs, hh]
    omega

theorem make_meta_length (pt : PyType) (hash salt : Bytes) (mode : EncryptMode)
    (hdr : Bytes) (hmk : make_meta pt hash salt mode = .ok hdr) :
    hdr.length = 3 + 3 + salt.length + hash.length := by
  cases pt with
  | other => simp [make_meta] at hmk
  | str =>
    simp only [make_meta, Except.ok.injEq] at hmk
    subst hmk
    simp [List.length_append, as_bytes_length]
    omega
  | bytes =>
    simp only [make_meta, Except.ok.injEq] at hmk
    subst hmk
    simp [List.length_append, as_bytes_length]
    omega

theorem make_meta_isBytes (pt : PyType) (hash salt : Bytes) (mode : EncryptMode)
    (hdr : Bytes) (hmk : make_meta pt hash salt mode = .ok hdr)
    (hh : IsBytes hash) (hs : IsBytes salt) : IsBytes hdr := by
  cases pt with
  | other => simp [make_meta] at hmk
  | str =>
    simp only [make_meta, Except.ok.injEq] at hmk
    subst hmk
    intro x hx
    simp only [List.mem_append] at hx
    rcases hx with (((hx | hx) | hx) | hx)
    · simp at hx; omega
    · exact as_bytes_isBytes mode x hx
    · exact hs x hx
    · exact hh x hx
  | bytes =>
    simp only [make_meta, Except.ok.injEq] at hmk
    subst hmk
    intro x hx
    simp only [List.mem_append] at hx
    rcases hx with (((hx | hx) | hx) | hx)
    · simp at hx; omega
    · exact as_bytes_isBytes mode x hx
    · exact hs x hx
    · exact hh x hx

/-- Parsing a header built by `make_meta` (followed by any ciphertext)
succeeds and recovers every field. -/
theorem read_meta_make (pt : PyType) (hash salt ct : Bytes) (mode : EncryptMode)
    (hs : salt.length = 16) (hh : hash.length = 32) (hdr : Bytes)
    (hmk : make_meta pt hash salt mode = .ok hdr) :
    read_meta (hdr ++ ct) = (none, ct, some ⟨pt, mode, salt, hash⟩) := by
  have dstr : utf8_decode [83, 84, 82] = some [83, 84, 82] := rfl
  have dbyt : utf8_decode [66, 89, 84] = some [66, 89, 84] := rfl
  have tstr : type_tag_lookup [83, 84, 82] = .ok .str := rfl
  have tbyt : type_tag_lookup [66, 89, 84] = .ok .bytes := rfl
  cases pt with
  | other => simp [make_meta] at hmk
  | str =>
    simp only [make_meta, Except.ok.injEq] at hmk
    subst hmk
    rw [show [83, 84, 82] ++ EncryptMode.as_bytes mode ++ salt ++ hash ++ ct
        = [83, 84, 82] ++ (EncryptMode.as_bytes mode ++ (salt ++ (hash ++ ct))) by
      simp [List.append_assoc]]
    obtain ⟨e1, e2, e3, e4, e5, e6⟩ := header_slices [83, 84, 82]
      (EncryptMode.as_bytes mode) salt hash ct rfl (as_bytes_length mode) hs hh
    unfold read_meta
    rw [if_neg (by omega)]
    simp only [e1, e2, e3, e4, e5, dstr, tstr, utf8_decode_as_bytes,
      me_from_value_val]
  | bytes =>
    simp only [make_meta, Except.ok.injEq] at hmk
    subst hmk
    rw [show [66, 89, 84] ++ EncryptMode.as_bytes mode ++ salt ++ hash ++ ct
        = [66, 89, 84] ++ (EncryptMode.as_bytes mode ++ (salt ++ (hash ++ ct))) by
      simp [List.append_assoc]]
    obtain ⟨e1, e2, e3, e4, e5, e6⟩ := header_slices [66, 89, 84]
      (EncryptMode.as_bytes mode) salt hash ct rfl (as_bytes_length mode) hs hh
    unfold read_meta
    rw [if_neg (by omega)]
    simp only [e1, e2, e3, e4, e5, dbyt, tbyt, utf8_decode_as_bytes,
      me_from_value_val]

theorem validate_ok (code : List Nat) (h : code ≠ []) :
    validate_inputs_data code = .ok () := by
  cases code with
  | nil => exact absurd rfl h
  | cons a l => rfl

theorem get_hash_some_salt (E : Ext) (code cb : List Nat) (salt rand : Bytes)
    (hcb : utf8_encode code = some cb) :
    get_hash_blake2b E code 32 (some salt) rand =
      .ok (E.blake2b cb 32 salt, salt) := by
  unfold get_hash_blake2b
  rw [if_neg (by norm_num), hcb]

theorem get_hash_none_salt (E : Ext) (code cb : List Nat) (rand : Bytes)
    (hcb : utf8_encode code = some cb) :
    get_hash_blake2b E code 32 none rand =
      .ok (E.blake2b cb 32 rand, rand) := by
  unfold get_hash_blake2b get_salt
  rw [if_neg (by norm_num), hcb]

/-- What `encrypt` returns on valid inputs. -/
theorem encrypt_ok (E : Ext) (rand : Bytes) (pl : Payload) (code : List Nat)
    (mode : EncryptMode) (cb pb hdr : Bytes)
    (hne : pl.isEmpty = false) (hcode : code ≠ [])
    (hcb : utf8_encode code = some cb) (hpb : pl.toBytes = .ok pb)
    (hmk : make_meta pl.pyType (E.blake2b cb 32 rand) rand mode = .ok hdr) :
    encrypt E rand pl code mode =
      .ok (_mode_warning mode,
        b64encode (hdr ++ E.do_encrypt pb (E.blake2b cb 32 rand))) := by
  unfold encrypt
  rw [hne]
  simp only [Bool.false_eq_true, if_false, validate_ok code hcode,
    get_hash_none_salt E code cb rand hcb, hpb, hmk, encrypting_rust]

theorem enum_call_name (m : EncryptMode) :
    EncryptMode.enum_call m.name = .ok m := by
  cases m <;> rfl

theorem me_from_name_val (m : EncryptMode) :
    EncryptMode.me_from_name m.name = .ok m := by
  cases m <;> rfl

theorem me_from_value_ok (v : List Nat) (m : EncryptMode)
    (h : EncryptMode.me_from_value v = .ok m) : v = m.value := by
  unfold EncryptMode.me_from_value at h
  cases hfind : EncryptMode.members.find? (fun x => x.value == v) with
  | none =>
    simp only [hfind] at h
    exact Except.noConfusion h
  | some m2 =>
    simp only [hfind] at h
    have hv : m2.value = v := by
      have := List.find?_some hfind
      exact eq_of_beq this
    rw [enum_call_name m2] at h
    have hmm : m2 = m := by injection h
    rw [← hmm, ← hv]

/-- What `decrypt` does on the armoring of a well-formed header plus
ciphertext: de-armors, parses, re-derives the key from the stored salt and
reaches the verifier comparison, then the cipher bridge and the
type-directed decoding. -/
theorem decrypt_wellformed (E : Ext) (pt : PyType) (mode : EncryptMode)
    (salt hash ct : Bytes) (code cb : List Nat) (hdr : Bytes)
    (hs : salt.length = 16) (hh : hash.length = 32)
    (hmk : make_meta pt hash salt mode = .ok hdr)
    (hbytes : IsBytes (hdr ++ ct))
    (hcb : utf8_encode code = some cb) :
    decrypt E (b64encode (hdr ++ ct)) code =
      if E.blake2b cb 32 salt ≠ hash then
        .error (.metaStringError "passphrases do not match")
      else if pt = PyType.bytes then
        .ok (_mode_warning mode, .byt (E.do_decrypt ct (E.blake2b cb 32 salt)))
      else
        match utf8_decode (E.do_decrypt ct (E.blake2b cb 32 salt)) with
        | some cps => .ok (_mode_warning mode, .str cps)
        | none => .error .unicodeDecodeError := by
  have hlen : hdr.length = 3 + 3 + salt.length + hash.length :=
    make_meta_length pt hash salt mode hdr hmk
  have hne : hdr ++ ct ≠ [] := by
    intro hcontra
    rcases List.append_eq_nil.mp hcontra with ⟨h1, h2⟩
    rw [h1] at hlen
    simp at hlen
    omega
  have hblob : b64encode (hdr ++ ct) ≠ [] := b64encode_ne_nil _ hne
  have hemp : (b64encode (hdr ++ ct)).isEmpty = false := by
    cases hb : b64encode (hdr ++ ct) with
    | nil => exact absurd hb hblob
    | cons a l => rfl
  unfold decrypt
  rw [hemp]
  simp only [Bool.false_eq_true, if_false,
    b64decode_encode (hdr ++ ct) hbytes,
    read_meta_make pt hash salt ct mode hs hh hdr hmk,
    get_hash_some_salt E code cb salt [] hcb, decrypting_rust]
  cases pt <;> rfl

/-- Inversion of a successful `encrypt`: recover every intermediate value. -/
theorem encrypt_ok_inv (E : Ext) (rand : Bytes) (pl : Payload)
    (code : List Nat) (mode : EncryptMode) (w : List Warning) (b : Bytes)
    (h : encrypt E rand pl code mode = .ok (w, b)) :
    pl.isEmpty = false ∧ code ≠ [] ∧
    ∃ cb pb hdr, utf8_encode code = some cb ∧ pl.toBytes = .ok pb ∧
      w = _mode_warning mode ∧
      make_meta pl.pyType (E.blake2b cb 32 rand) rand mode = .ok hdr ∧
      b = b64encode (hdr ++ E.do_encrypt pb (E.blake2b cb 32 rand)) := by
  unfold encrypt at h
  cases hpe : pl.isEmpty with
  | true => rw [hpe] at h; simp at h
  | false =>
    rw [hpe] at h
    simp only [Bool.false_eq_true, if_false] at h
    cases code with
    | nil => simp [validate_inputs_data, List.isEmpty] at h
    | cons c0 cs =>
      rw [validate_ok (c0 :: cs) (by simp)] at h
      refine ⟨rfl, by simp, ?_⟩
      unfold get_hash_blake2b get_salt at h
      rw [if_neg (by norm_num)] at h
      cases hcb : utf8_encode (c0 :: cs) with
      | none => rw [hcb] at h; simp at h
      | some cb =>
        rw [hcb] at h
        simp only [] at h
        cases hpb : Payload.toBytes pl with
        | error e => rw [hpb] at h; simp at h
        | ok pb =>
          rw [hpb] at h
          simp only [encrypting_rust] at h
          cases hmk : make_meta pl.pyType (E.blake2b cb 32 rand) rand mode with
          | error e => rw [hmk] at h; simp at h
          | ok hdr =>
            rw [hmk] at h
            simp only [Except.ok.injEq, Prod.mk.injEq] at h
            exact ⟨cb, pb, hdr, rfl, rfl, h.1.symm, hmk, h.2.symm⟩

theorem get_hash_no_binascii (E : Ext) (v : List Nat) (d : Nat)
    (salt : Option Bytes) (rand : Bytes) :
    get_hash_blake2b E v d salt rand ≠ .error .binasciiError := by
  intro hcontra
  unfold get_hash_blake2b at hcontra
  split_ifs at hcontra with h <;>
    cases he : utf8_encode v <;> simp [he] at hcontra

/-- C1: Round trip.  For every non-empty payload (text whose code points
UTF-8-encode, or bytes) and non-empty encodable passphrase, decrypting the
ECB-encryption with the same passphrase returns exactly the original
payload with its original type — a bytes payload comes back as the bytes
constructor (the BYT tag) — under the assumptions that the external cipher
satisfies `do_decrypt (do_encrypt x k) k = x` at the ciphered input, that
blake2b returns 32 bytes at digest size 32, and that the external
collaborators return byte values. -/
theorem C1_round_trip (E : Ext) (rand : Bytes) (pl : Payload)
    (code cb : List Nat) (pb : Bytes)
    (hne : pl.isEmpty = false) (hcode : code ≠ [])
    (hcb : utf8_encode code = some cb) (hpb : pl.toBytes = .ok pb)
    (hrand : rand.length = 16) (hrandB : IsBytes rand)
    (hklen : (E.blake2b cb 32 rand).length = 32)
    (hkB : IsBytes (E.blake2b cb 32 rand))
    (hctB : IsBytes (E.do_encrypt pb (E.blake2b cb 32 rand)))
    (hcip : E.do_decrypt (E.do_encrypt pb (E.blake2b cb 32 rand))
      (E.blake2b cb 32 rand) = pb) :
    ∃ blob, encrypt E rand pl code .ECB = .ok ([], blob) ∧
      decrypt E blob code = .ok ([], pl) := by
  obtain ⟨hdr, hmk⟩ : ∃ hdr,
      make_meta pl.pyType (E.blake2b cb 32 rand) rand .ECB = .ok hdr := by
    cases pl <;> exact ⟨_, rfl⟩
  refine ⟨b64encode (hdr ++ E.do_encrypt pb (E.blake2b cb 32 rand)), ?_, ?_⟩
  · have h := encrypt_ok E rand pl code .ECB cb pb hdr hne hcode hcb hpb hmk
    simpa [_mode_warning] using h
  · have hbytes : IsBytes (hdr ++ E.do_encrypt pb (E.blake2b cb 32 rand)) :=
      IsBytes_append
        (make_meta_isBytes pl.pyType (E.blake2b cb 32 rand) rand .ECB hdr hmk
          hkB hrandB) hctB
    rw [decrypt_wellformed E pl.pyType .ECB rand (E.blake2b cb 32 rand)
      (E.do_encrypt pb (E.blake2b cb 32 rand)) code cb hdr hrand hklen hmk
      hbytes hcb]
    rw [if_neg (by simp), hcip]
    cases pl with
    | byt b =>
      have hpbb : pb = b := by
        simp only [Payload.toBytes, Except.ok.injEq] at hpb
        exact hpb.symm
      simp [Payload.pyType, _mode_warning, hpbb]
    | str p =>
      have hpe : utf8_encode p = some pb := by
        simp only [Payload.toBytes] at hpb
        cases he : utf8_encode p with
        | none => rw [he] at hpb; simp at hpb
        | some b2 =>
          rw [he] at hpb
          simp only [Except.ok.injEq] at hpb
          rw [hpb]
      have hdec : utf8_decode pb = some p := utf8_decode_encode p pb hpe
      simp [Payload.pyType, _mode_warning, hdec]

/-- C1 witness: round trip at a concrete instantiation (identity cipher,
constant hash, zero salt, payload "hi", passphrase "k"). -/
theorem C1_round_trip_witness :
    ∃ blob, encrypt ⟨fun _ d _ => List.replicate d 0, fun x _ => x, fun x _ => x⟩
        (List.replicate 16 0) (.str [104, 105]) [107] .ECB = .ok ([], blob) ∧
      decrypt ⟨fun _ d _ => List.replicate d 0, fun x _ => x, fun x _ => x⟩
        blob [107] = .ok ([], .str [104, 105]) :=
  C1_round_trip ⟨fun _ d _ => List.replicate d 0, fun x _ => x, fun x _ => x⟩
    (List.replicate 16 0) (.str [104, 105]) [107] [107] [104, 105]
    rfl (by simp) rfl rfl (by simp) (by intro b hb; simp at hb; omega)
    (by simp) (by intro b hb; simp at hb; omega)
    (by intro b hb; simp at hb; omega) rfl

/-- C2 counterexample: the source `decrypt` has no `ignore_mismatch`
parameter, so the Python call `decrypt(ct, code='wrong',
ignore_mismatch=True)` raises `TypeError` instead of returning without
raising as the claim demands. -/
theorem C2_counterexample :
    decrypt_call_with_ignore_mismatch
      ⟨fun _ d _ => List.replicate d 0, fun x _ => x, fun x _ => x⟩
      [81, 81, 61, 61] [119, 114, 111, 110, 103] true = .error .typeError := rfl

/-- C2 (amended): decrypting an encryption under a passphrase whose derived
hash differs raises `MetaStringError` (passphrases do not match); and there
is no `ignore_mismatch` opt-out — passing that keyword raises `TypeError`. -/
theorem C2_mismatch_detected (E : Ext) (rand : Bytes) (pl : Payload)
    (code1 code2 cb1 cb2 : List Nat) (pb : Bytes)
    (hne : pl.isEmpty = false) (hcode1 : code1 ≠ [])
    (hcb1 : utf8_encode code1 = some cb1) (hcb2 : utf8_encode code2 = some cb2)
    (hpb : pl.toBytes = .ok pb)
    (hrand : rand.length = 16) (hrandB : IsBytes rand)
    (hklen : (E.blake2b cb1 32 rand).length = 32)
    (hkB : IsBytes (E.blake2b cb1 32 rand))
    (hctB : IsBytes (E.do_encrypt pb (E.blake2b cb1 32 rand)))
    (hkdiff : E.blake2b cb2 32 rand ≠ E.blake2b cb1 32 rand) :
    (∃ blob, encrypt E rand pl code1 .ECB = .ok ([], blob) ∧
      decrypt E blob code2 =
        .error (.metaStringError "passphrases do not match")) ∧
    (∀ ct ig, decrypt_call_with_ignore_mismatch E ct code2 ig =
      .error .typeError) := by
  constructor
  · obtain ⟨hdr, hmk⟩ : ∃ hdr,
        make_meta pl.pyType (E.blake2b cb1 32 rand) rand .ECB = .ok hdr := by
      cases pl <;> exact ⟨_, rfl⟩
    refine ⟨b64encode (hdr ++ E.do_encrypt pb (E.blake2b cb1 32 rand)), ?_, ?_⟩
    · have h := encrypt_ok E rand pl code1 .ECB cb1 pb hdr hne hcode1 hcb1 hpb hmk
      simpa [_mode_warning] using h
    · have hbytes : IsBytes (hdr ++ E.do_encrypt pb (E.blake2b cb1 32 rand)) :=
        IsBytes_append
          (make_meta_isBytes pl.pyType (E.blake2b cb1 32 rand) rand .ECB hdr hmk
            hkB hrandB) hctB
      rw [decrypt_wellformed E pl.pyType .ECB rand (E.blake2b cb1 32 rand)
        (E.do_encrypt pb (E.blake2b cb1 32 rand)) code2 cb2 hdr hrand hklen hmk
        hbytes hcb2]
      rw [if_pos hkdiff]
  · intro ct ig
    rfl

/-- C2 witness: the amended theorem at a concrete instantiation where the
two passphrases derive different hashes. -/
theorem C2_mismatch_detected_witness :
    (∃ blob, encrypt ⟨fun m d _ => (m ++ List.replicate d 0).take d,
        fun x _ => x, fun x _ => x⟩
        (List.replicate 16 0) (.byt [1, 2, 3]) [97] .ECB = .ok ([], blob) ∧
      decrypt ⟨fun m d _ => (m ++ List.replicate d 0).take d,
        fun x _ => x, fun x _ => x⟩ blob [98] =
        .error (.metaStringError "passphrases do not match")) ∧
    (∀ ct ig, decrypt_call_with_ignore_mismatch
      ⟨fun m d _ => (m ++ List.replicate d 0).take d,
        fun x _ => x, fun x _ => x⟩ ct [98] ig = .error .typeError) :=
  C2_mismatch_detected ⟨fun m d _ => (m ++ List.replicate d 0).take d,
      fun x _ => x, fun x _ => x⟩
    (List.replicate 16 0) (.byt [1, 2, 3]) [97] [98] [97] [98] [1, 2, 3]
    rfl (by simp) rfl rfl rfl (by simp) (by intro b hb; simp at hb; omega)
    (by decide) (by unfold IsBytes; decide) (by unfold IsBytes; decide)
    (by decide)

/-- C4: Mode registry lookup.  Every member is found by its 3-letter value
and by its name; every string outside the closed set fails both lookups
with the Unknown-encrypt-mode error; and no two modes share a value. -/
theorem C4_mode_registry :
    (∀ m : EncryptMode, EncryptMode.me_from_value m.value = .ok m ∧
      EncryptMode.me_from_name m.name = .ok m) ∧
    (∀ s : List Nat, (∀ m : EncryptMode, s ≠ m.value) →
      EncryptMode.me_from_value s = .error (.valueError "Unknown encrypt mode") ∧
      EncryptMode.me_from_name s = .error (.valueError "Unknown encrypt mode")) ∧
    (∀ m1 m2 : EncryptMode, m1.value = m2.value → m1 = m2) := by
  refine ⟨fun m => ⟨me_from_value_val m, me_from_name_val m⟩,
    fun s hs => ⟨?_, ?_⟩,
    by intro m1 m2 h; cases m1 <;> cases m2 <;> simp_all [EncryptMode.value]⟩
  · unfold EncryptMode.me_from_value
    have hfind : EncryptMode.members.find? (fun m => m.value == s) = none := by
      rw [List.find?_eq_none]
      intro m hm
      simp only [beq_iff_eq]
      exact fun hc => hs m hc.symm
    rw [hfind]
  · unfold EncryptMode.me_from_name
    have hany : EncryptMode.members.any (fun m => m.name == s) = false := by
      rw [List.any_eq_false]
      intro m hm
      simp only [beq_iff_eq]
      exact fun hc => hs m hc.symm
    rw [hany]
    rfl

/-- C4 witness: the outside-the-set clause at the concrete string XXX. -/
theorem C4_mode_registry_witness :
    EncryptMode.me_from_value [88, 88, 88] =
      .error (.valueError "Unknown encrypt mode") ∧
    EncryptMode.me_from_name [88, 88, 88] =
      .error (.valueError "Unknown encrypt mode") :=
  C4_mode_registry.2.1 [88, 88, 88] (by intro m; cases m <;> decide)

/-- C5: Key-derivation determinism.  With a supplied salt the result of
`get_hash_blake2b` does not depend on the randomness source at all — two
calls with different random draws return the identical result — and the
key returned is exactly the blake2b digest of the UTF-8 passphrase at the
given digest size and salt. -/
theorem C5_derive_deterministic (E : Ext) (p : List Nat) (d : Nat)
    (S r1 r2 : Bytes) :
    get_hash_blake2b E p d (some S) r1 = get_hash_blake2b E p d (some S) r2 ∧
    (∀ vb, utf8_encode p = some vb → 1 ≤ d → d ≤ 64 →
      get_hash_blake2b E p d (some S) r1 = .ok (E.blake2b vb d S, S)) := by
  constructor
  · rfl
  · intro vb hvb h1 h2
    unfold get_hash_blake2b
    rw [if_neg (by omega), hvb]

/-- C5 witness: determinism and the digest shape at a concrete input. -/
theorem C5_derive_deterministic_witness :
    get_hash_blake2b ⟨fun _ d _ => List.replicate d 0, fun x _ => x, fun x _ => x⟩
        [97] 32 (some (List.replicate 16 5)) [1] =
      get_hash_blake2b ⟨fun _ d _ => List.replicate d 0, fun x _ => x, fun x _ => x⟩
        [97] 32 (some (List.replicate 16 5)) [2] ∧
    get_hash_blake2b ⟨fun _ d _ => List.replicate d 0, fun x _ => x, fun x _ => x⟩
        [97] 32 (some (List.replicate 16 5)) [1] =
      .ok (List.replicate 32 0, List.replicate 16 5) :=
  ⟨(C5_derive_deterministic ⟨fun _ d _ => List.replicate d 0, fun x _ => x,
      fun x _ => x⟩ [97] 32 (List.replicate 16 5) [1] [2]).1,
   (C5_derive_deterministic ⟨fun _ d _ => List.replicate d 0, fun x _ => x,
      fun x _ => x⟩ [97] 32 (List.replicate 16 5) [1] [2]).2 [97] rfl
     (by omega) (by omega)⟩

/-- C6: Header construction.  For the two recognized payload types
`make_meta` returns exactly type tag, 3-byte uppercase mode tag, salt and
verifier concatenated — 54 bytes when the salt is 16 and the hash 32
bytes — and fails with `ValueError` for any other plaintext type. -/
theorem C6_make_header (mode : EncryptMode) (salt hash_code : Bytes)
    (hs : salt.length = 16) (hh : hash_code.length = 32) :
    (make_meta .str hash_code salt mode =
        .ok ([83, 84, 82] ++ mode.as_bytes ++ salt ++ hash_code) ∧
      make_meta .bytes hash_code salt mode =
        .ok ([66, 89, 84] ++ mode.as_bytes ++ salt ++ hash_code)) ∧
    (∀ hdr, make_meta .str hash_code salt mode = .ok hdr → hdr.length = 54) ∧
    (∀ hdr, make_meta .bytes hash_code salt mode = .ok hdr → hdr.length = 54) ∧
    (mode.as_bytes.length = 3 ∧ ∀ c ∈ mode.as_bytes, 65 ≤ c ∧ c ≤ 90) ∧
    make_meta .other hash_code salt mode =
      .error (.valueError "plaintext_type must be str or bytes") := by
  refine ⟨⟨rfl, rfl⟩, ?_, ?_, ⟨as_bytes_length mode, ?_⟩, rfl⟩
  · intro hdr hmk
    have := make_meta_length .str hash_code salt mode hdr hmk
    omega
  · intro hdr hmk
    have := make_meta_length .bytes hash_code salt mode hdr hmk
    omega
  · cases mode <;> decide

/-- C6 witness: the header layout at a concrete 16-byte salt and 32-byte
verifier. -/
theorem C6_make_header_witness :
    make_meta .str (List.replicate 32 2) (List.replicate 16 1) .ECB =
      .ok ([83, 84, 82] ++ (EncryptMode.ECB).as_bytes ++ List.replicate 16 1 ++
        List.replicate 32 2) ∧
    make_meta .other (List.replicate 32 2) (List.replicate 16 1) .ECB =
      .error (.valueError "plaintext_type must be str or bytes") :=
  ⟨(C6_make_header .ECB (List.replicate 16 1) (List.replicate 32 2)
      (by simp) (by simp)).1.1,
   (C6_make_header .ECB (List.replicate 16 1) (List.replicate 32 2)
      (by simp) (by simp)).2.2.2.2⟩

/-- C7 counterexample: the claim says derivation fails on an empty
passphrase, but `get_hash_blake2b` with an empty passphrase succeeds and
returns a key. -/
theorem C7_counterexample :
    get_hash_blake2b ⟨fun _ d _ => List.replicate d 0, fun x _ => x, fun x _ => x⟩
      [] 32 (some (List.replicate 16 0)) [] =
      .ok (List.replicate 32 0, List.replicate 16 0) := rfl

/-- C7 (amended): `get_hash_blake2b` validates only the digest size —
`ValueError` outside 1..64, success otherwise, in particular on the empty
passphrase; the empty-passphrase rejection lives in `encrypt`'s
`validate_inputs_data` instead. -/
theorem C7_digest_size_validation (E : Ext) (value : List Nat) (d : Nat)
    (salt : Option Bytes) (rand : Bytes) :
    (¬(1 ≤ d ∧ d ≤ 64) →
      get_hash_blake2b E value d salt rand =
        .error (.valueError "digest_size out of range")) ∧
    (∀ vb, utf8_encode value = some vb → 1 ≤ d → d ≤ 64 →
      ∃ k s, get_hash_blake2b E value d salt rand = .ok (k, s)) ∧
    (1 ≤ d → d ≤ 64 →
      ∃ k s, get_hash_blake2b E [] d salt rand = .ok (k, s)) ∧
    (∀ pl mode, pl.isEmpty = false →
      encrypt E rand pl [] mode =
        .error (.valueError "code must be str and cannot be empty")) := by
  refine ⟨?_, ?_, ?_, ?_⟩
  · intro h
    unfold get_hash_blake2b
    rw [if_pos h]
  · intro vb hvb h1 h2
    unfold get_hash_blake2b
    rw [if_neg (by omega), hvb]
    exact ⟨_, _, rfl⟩
  · intro h1 h2
    unfold get_hash_blake2b
    rw [if_neg (by omega)]
    exact ⟨_, _, rfl⟩
  · intro pl mode hne
    unfold encrypt
    rw [hne]
    simp [validate_inputs_data, List.isEmpty]

/-- C7 witness: the amended claim at digest size 0 (failure) and at the
empty passphrase with digest size 32 (success). -/
theorem C7_digest_size_validation_witness :
    get_hash_blake2b ⟨fun _ d _ => List.replicate d 0, fun x _ => x, fun x _ => x⟩
      [97] 0 none [] = .error (.valueError "digest_size out of range") ∧
    ∃ k s, get_hash_blake2b
      ⟨fun _ d _ => List.replicate d 0, fun x _ => x, fun x _ => x⟩
      [] 32 none [] = .ok (k, s) :=
  ⟨(C7_digest_size_validation ⟨fun _ d _ => List.replicate d 0, fun x _ => x,
      fun x _ => x⟩ [97] 0 none []).1 (by omega),
   (C7_digest_size_validation ⟨fun _ d _ => List.replicate d 0, fun x _ => x,
      fun x _ => x⟩ [] 32 none []).2.2.1 (by omega) (by omega)⟩

/-- C9: Envelope codec round trip.  Parsing the concatenation of a header
built by `make_meta` (any recognized type, any mode, 16-byte salt, 32-byte
verifier) with any ciphertext succeeds with no error, returns exactly that
ciphertext as the remainder, and recovers the type, mode, salt and
verifier unchanged. -/
theorem C9_envelope_round_trip (pt : PyType) (mode : EncryptMode)
    (salt hash ct hdr : Bytes)
    (hs : salt.length = 16) (hh : hash.length = 32)
    (hmk : make_meta pt hash salt mode = .ok hdr) :
    read_meta (hdr ++ ct) = (none, ct, some ⟨pt, mode, salt, hash⟩) :=
  read_meta_make pt hash salt ct mode hs hh hdr hmk

/-- C9 witness: the codec round trip at a concrete header. -/
theorem C9_envelope_round_trip_witness :
    read_meta (([66, 89, 84] ++ (EncryptMode.CTR).as_bytes ++
        List.replicate 16 7 ++ List.replicate 32 9) ++ [1, 2]) =
      (none, [1, 2],
        some ⟨.bytes, .CTR, List.replicate 16 7, List.replicate 32 9⟩) :=
  C9_envelope_round_trip .bytes .CTR (List.replicate 16 7)
    (List.replicate 32 9) [1, 2] _ (by simp) (by simp) rfl

/-- C10: The mode never reaches the cipher.  The bytes produced by the
cipher bridge are identical for any two modes (the mode argument is
dropped before the `do_encrypt` call); a non-ECB mode contributes exactly
one runtime warning and never an error; and two encryptions differing only
in mode produce pre-armor bytes that differ only in the 3-byte mode tag. -/
theorem C10_mode_dropped (E : Ext) (rand : Bytes) (pl : Payload)
    (code : List Nat) (m1 m2 : EncryptMode) :
    (∀ p k, (encrypting_rust E p k m1).2 = (encrypting_rust E p k m2).2) ∧
    (∀ m : EncryptMode, _mode_warning m =
      if m = .ECB then [] else [.modeWarning]) ∧
    (∀ w1 b1, encrypt E rand pl code m1 = .ok (w1, b1) →
      w1 = _mode_warning m1 ∧
      ∃ w2 b2, encrypt E rand pl code m2 = .ok (w2, b2) ∧
        w2 = _mode_warning m2 ∧
        ∃ t s h ctb, b1 = b64encode (t ++ m1.as_bytes ++ s ++ h ++ ctb) ∧
          b2 = b64encode (t ++ m2.as_bytes ++ s ++ h ++ ctb)) := by
  refine ⟨fun p k => rfl, fun m => by cases m <;> rfl, ?_⟩
  intro w1 b1 h
  obtain ⟨hne, hcode, cb, pb, hdr1, hcb, hpb, hw, hmk1, hb⟩ :=
    encrypt_ok_inv E rand pl code m1 w1 b1 h
  refine ⟨hw, ?_⟩
  obtain ⟨hdr2, hmk2⟩ : ∃ hdr2,
      make_meta pl.pyType (E.blake2b cb 32 rand) rand m2 = .ok hdr2 := by
    cases pl <;> exact ⟨_, rfl⟩
  refine ⟨_, _, encrypt_ok E rand pl code m2 cb pb hdr2 hne hcode hcb hpb hmk2,
    rfl, ?_⟩
  cases pl with
  | str p =>
    simp only [Payload.pyType, make_meta, Except.ok.injEq] at hmk1 hmk2
    refine ⟨[83, 84, 82], rand, E.blake2b cb 32 rand,
      E.do_encrypt pb (E.blake2b cb 32 rand), ?_, ?_⟩
    · rw [hb, ← hmk1]
    · rw [← hmk2]
  | byt b =>
    simp only [Payload.pyType, make_meta, Except.ok.injEq] at hmk1 hmk2
    refine ⟨[66, 89, 84], rand, E.blake2b cb 32 rand,
      E.do_encrypt pb (E.blake2b cb 32 rand), ?_, ?_⟩
    · rw [hb, ← hmk1]
    · rw [← hmk2]

/-- C10 witness: a concrete CBC-versus-CTR pair of encryptions. -/
theorem C10_mode_dropped_witness :
    (encrypting_rust ⟨fun _ d _ => List.replicate d 0, fun x _ => x, fun x _ => x⟩
        [5] [7] .CBC).2 =
      (encrypting_rust ⟨fun _ d _ => List.replicate d 0, fun x _ => x, fun x _ => x⟩
        [5] [7] .CTR).2 ∧
    [Warning.modeWarning] = _mode_warning .CBC ∧
    ∃ w2 b2, encrypt ⟨fun _ d _ => List.replicate d 0, fun x _ => x, fun x _ => x⟩
        (List.replicate 16 0) (.byt [1]) [97] .CTR = .ok (w2, b2) ∧
      w2 = _mode_warning .CTR ∧
      ∃ t s h ctb,
        b64encode ([66, 89, 84] ++ (EncryptMode.CBC).as_bytes ++
          List.replicate 16 0 ++ List.replicate 32 0 ++ [1]) =
          b64encode (t ++ (EncryptMode.CBC).as_bytes ++ s ++ h ++ ctb) ∧
        b2 = b64encode (t ++ (EncryptMode.CTR).as_bytes ++ s ++ h ++ ctb) :=
  ⟨((C10_mode_dropped ⟨fun _ d _ => List.replicate d 0, fun x _ => x, fun x _ => x⟩
      (List.replicate 16 0) (.byt [1]) [97] .CBC .CTR).1 [5] [7]),
   ((C10_mode_dropped ⟨fun _ d _ => List.replicate d 0, fun x _ => x, fun x _ => x⟩
      (List.replicate 16 0) (.byt [1]) [97] .CBC .CTR).2.2 [Warning.modeWarning]
      (b64encode ([66, 89, 84] ++ (EncryptMode.CBC).as_bytes ++
        List.replicate 16 0 ++ List.replicate 32 0 ++ [1])) rfl).1,
   ((C10_mode_dropped ⟨fun _ d _ => List.replicate d 0, fun x _ => x, fun x _ => x⟩
      (List.replicate 16 0) (.byt [1]) [97] .CBC .CTR).2.2 [Warning.modeWarning]
      (b64encode ([66, 89, 84] ++ (EncryptMode.CBC).as_bytes ++
        List.replicate 16 0 ++ List.replicate 32 0 ++ [1])) rfl).2⟩

theorem type_tag_lookup_ok (t : List Nat) (st : PyType)
    (h : type_tag_lookup t = .ok st) :
    (st = .str ∧ t = [83, 84, 82]) ∨ (st = .bytes ∧ t = [66, 89, 84]) := by
  unfold type_tag_lookup at h
  split_ifs at h with h1 h2
  · exact Or.inl ⟨(Except.ok.inj h).symm, h1⟩
  · exact Or.inr ⟨(Except.ok.inj h).symm, h2⟩

theorem value_ascii (m : EncryptMode) : ∀ c ∈ m.value, c < 128 := by
  cases m <;> decide

/-- C3: Header-parse error behavior.  `read_meta` is a total function (it
never raises: every failure is returned as the first component), and the
returned error is present exactly when the buffer is shorter than 54
bytes, or its 3-byte type tag is neither STR nor BYT, or its 3-byte mode
tag is no registry member's tag; on every such malformed input the
returned payload is empty and the returned dictionary is empty (`none`). -/
theorem C3_read_meta_errors (buf : Bytes) :
    ((read_meta buf).1.isSome = true ↔
      (buf.length < 54 ∨
        (buf.take 3 ≠ [83, 84, 82] ∧ buf.take 3 ≠ [66, 89, 84]) ∨
        (∀ m : EncryptMode, (buf.drop 3).take 3 ≠ m.as_bytes))) ∧
    ((read_meta buf).1.isSome = true →
      (read_meta buf).2.1 = [] ∧ (read_meta buf).2.2 = none) := by
  by_cases hlen : buf.length < 54
  · have heq : read_meta buf =
        (some (.valueError "metadata string is incorrect (short line)"), [], none) := by
      unfold read_meta
      rw [if_pos hlen]
    rw [heq]
    exact ⟨⟨fun _ => Or.inl hlen, fun _ => rfl⟩, fun _ => ⟨rfl, rfl⟩⟩
  · cases hdec : utf8_decode (buf.take 3) with
    | none =>
      have heq : read_meta buf = (some .unicodeDecodeError, [], none) := by
        unfold read_meta
        rw [if_neg hlen]
        simp only [hdec]
      have h1 : buf.take 3 ≠ [83, 84, 82] := by
        intro hc
        rw [hc] at hdec
        exact Option.noConfusion hdec
      have h2 : buf.take 3 ≠ [66, 89, 84] := by
        intro hc
        rw [hc] at hdec
        exact Option.noConfusion hdec
      rw [heq]
      exact ⟨⟨fun _ => Or.inr (Or.inl ⟨h1, h2⟩), fun _ => rfl⟩,
        fun _ => ⟨rfl, rfl⟩⟩
    | some tcps =>
      cases htt : type_tag_lookup tcps with
      | error e =>
        have heq : read_meta buf = (some e, [], none) := by
          unfold read_meta
          rw [if_neg hlen]
          simp only [hdec, htt]
        have h1 : buf.take 3 ≠ [83, 84, 82] := by
          intro hc
          rw [hc] at hdec
          have ht : [83, 84, 82] = tcps := Option.some.inj hdec
          subst ht
          exact Except.noConfusion htt
        have h2 : buf.take 3 ≠ [66, 89, 84] := by
          intro hc
          rw [hc] at hdec
          have ht : [66, 89, 84] = tcps := Option.some.inj hdec
          subst ht
          exact Except.noConfusion htt
        rw [heq]
        exact ⟨⟨fun _ => Or.inr (Or.inl ⟨h1, h2⟩), fun _ => rfl⟩,
          fun _ => ⟨rfl, rfl⟩⟩
      | ok st =>
        have htag : (buf.take 3 = [83, 84, 82]) ∨ (buf.take 3 = [66, 89, 84]) := by
          rcases type_tag_lookup_ok tcps st htt with ⟨-, ht⟩ | ⟨-, ht⟩
          · subst ht
            exact Or.inl (utf8_decode_ascii _ _ hdec (by decide))
          · subst ht
            exact Or.inr (utf8_decode_ascii _ _ hdec (by decide))
        cases hdec2 : utf8_decode ((buf.drop 3).take 3) with
        | none =>
          have heq : read_meta buf = (some .unicodeDecodeError, [], none) := by
            unfold read_meta
            rw [if_neg hlen]
            simp only [hdec, htt, hdec2]
          have h3 : ∀ m : EncryptMode, (buf.drop 3).take 3 ≠ m.as_bytes := by
            intro m hc
            rw [hc, utf8_decode_as_bytes m] at hdec2
            exact Option.noConfusion hdec2
          rw [heq]
          exact ⟨⟨fun _ => Or.inr (Or.inr h3), fun _ => rfl⟩,
            fun _ => ⟨rfl, rfl⟩⟩
        | some mcps =>
          cases hmv : EncryptMode.me_from_value mcps with
          | error e =>
            have heq : read_meta buf = (some e, [], none) := by
              unfold read_meta
              rw [if_neg hlen]
              simp only [hdec, htt, hdec2, hmv]
            have h3 : ∀ m : EncryptMode, (buf.drop 3).take 3 ≠ m.as_bytes := by
              intro m hc
              rw [hc, utf8_decode_as_bytes m] at hdec2
              have hm : m.value = mcps := Option.some.inj hdec2
              rw [← hm, me_from_value_val m] at hmv
              exact Except.noConfusion hmv
            rw [heq]
            exact ⟨⟨fun _ => Or.inr (Or.inr h3), fun _ => rfl⟩,
              fun _ => ⟨rfl, rfl⟩⟩
          | ok mode =>
            have heq : read_meta buf = (none, buf.drop 54,
                some ⟨st, mode, (buf.drop 6).take 16, (buf.drop 22).take 32⟩) := by
              unfold read_meta
              rw [if_neg hlen]
              simp only [hdec, htt, hdec2, hmv]
            have hmcps : mcps = mode.value := me_from_value_ok mcps mode hmv
            have hslice : (buf.drop 3).take 3 = mode.as_bytes := by
              rw [as_bytes_val mode, ← hmcps]
              exact utf8_decode_ascii _ _ hdec2 (hmcps ▸ value_ascii mode)
            rw [heq]
            constructor
            · constructor
              · intro hfalse
                exact absurd hfalse (by simp)
              · intro hrhs
                exfalso
                rcases hrhs with h | ⟨h1, h2⟩ | h3
                · exact hlen h
                · rcases htag with ht | ht
                  · exact h1 ht
                  · exact h2 ht
                · exact h3 mode hslice
            · intro hfalse
              exact absurd hfalse (by simp)

/-- C3 witness: the empty buffer is malformed (short line): the parse
yields an error with empty remainder and empty dictionary. -/
theorem C3_read_meta_errors_witness :
    (read_meta []).2.1 = [] ∧ (read_meta []).2.2 = none :=
  (C3_read_meta_errors []).2 (by decide)

/-- C8 counterexample: the blob of four bytes 33 (the character !) is not
valid armor — none of its bytes is in the base64 alphabet or padding — yet
Python's lenient `b64decode` de-armors it without raising (to the empty
byte string), and `decrypt` fails only afterwards, at header parsing, with
`MetaStringError`, not with an input-validation error during de-armoring. -/
theorem C8_counterexample :
    b64decode_py [33, 33, 33, 33] = some [] ∧
    (∀ x ∈ [33, 33, 33, 33], b64inv x = none ∧ x ≠ 61) ∧
    decrypt ⟨fun _ d _ => List.replicate d 0, fun x _ => x, fun x _ => x⟩
      [33, 33, 33, 33] [107] =
      .error (.metaStringError "metadata string is incorrect (short line)") :=
  ⟨rfl, by decide, rfl⟩

/-- C8 (amended): `decrypt` fails at the de-armoring step (with
`binascii.Error`, a `ValueError` subclass) exactly when Python's lenient
base64 decoder rejects the blob — a leftover quad position at end of
input, i.e. wrong count of data characters / incorrect padding.  Any other
non-empty blob, armored validly or not, is de-armored leniently, and a
later failure of `decrypt` is never the de-armoring error. -/
theorem C8_armor_step (E : Ext) (blob : Bytes) (code : List Nat)
    (hne : blob ≠ []) :
    (b64decode_py blob = none → decrypt E blob code = .error .binasciiError) ∧
    (∀ ct, b64decode_py blob = some ct →
      decrypt E blob code ≠ .error .binasciiError) := by
  have hemp : blob.isEmpty = false := by
    cases blob with
    | nil => exact absurd rfl hne
    | cons a l => rfl
  constructor
  · intro hdec
    unfold decrypt
    rw [hemp]
    simp only [Bool.false_eq_true, if_false, hdec]
  · intro ct hdec hcontra
    unfold decrypt at hcontra
    rw [hemp] at hcontra
    simp only [Bool.false_eq_true, if_false, hdec] at hcontra
    rcases hrm : read_meta ct with ⟨eopt, ct2, mdopt⟩
    cases eopt with
    | some e =>
      simp only [hrm] at hcontra
      simp at hcontra
    | none =>
      cases mdopt with
      | none =>
        simp only [hrm] at hcontra
        simp at hcontra
      | some md =>
        simp only [hrm] at hcontra
        cases hgh : get_hash_blake2b E code 32 (some md.salt) [] with
        | error e2 =>
          simp only [hgh, Except.error.injEq] at hcontra
          rw [hcontra] at hgh
          exact get_hash_no_binascii E code 32 (some md.salt) [] hgh
        | ok ks =>
          obtain ⟨k, s⟩ := ks
          simp only [hgh] at hcontra
          by_cases hk : k ≠ md.hash_code
          · rw [if_pos hk] at hcontra
            simp at hcontra
          · rw [if_neg hk] at hcontra
            cases hst : md.source_type with
            | bytes => simp only [hst] at hcontra; simp at hcontra
            | str =>
              simp only [hst] at hcontra
              cases hdd : utf8_decode (decrypting_rust E ct2 k md.mode).2 with
              | some cps => simp only [hdd] at hcontra; simp at hcontra
              | none => simp only [hdd] at hcontra; simp at hcontra
            | other =>
              simp only [hst] at hcontra
              cases hdd : utf8_decode (decrypting_rust E ct2 k md.mode).2 with
              | some cps => simp only [hdd] at hcontra; simp at hcontra
              | none => simp only [hdd] at hcontra; simp at hcontra

/-- C8 witness: a blob the lenient decoder rejects fails with the
de-armoring error; the !!!! blob decodes leniently and never produces it. -/
theorem C8_armor_step_witness :
    decrypt ⟨fun _ d _ => List.replicate d 0, fun x _ => x, fun x _ => x⟩
      [65] [107] = .error .binasciiError ∧
    decrypt ⟨fun _ d _ => List.replicate d 0, fun x _ => x, fun x _ => x⟩
      [33, 33, 33, 33] [107] ≠ .error .binasciiError :=
  ⟨(C8_armor_step ⟨fun _ d _ => List.replicate d 0, fun x _ => x, fun x _ => x⟩
      [65] [107] (by decide)).1 (by decide),
   (C8_armor_step ⟨fun _ d _ => List.replicate d 0, fun x _ => x, fun x _ => x⟩
      [33, 33, 33, 33] [107] (by decide)).2 [] (by decide)⟩

end GrassCrypt






